import Mathlib

/-!
Verification development for the Siraj voice point-of-interest assistant
(`siraj_pipeline.py`, `siraj_super_version.py`).

The resolvable core is shallowly embedded here:

* the catalog construction from the CSV table
  (`df["Display_Name"] = df["Name"].fillna(df.get("English_name", ""))`),
* the name extractor `extract_destination` (a Python `re.search` over the
  pattern `(?:إلى|لـ|ل)\s*([؀-ۿ\s]+)`),
* the fuzzy resolver `find_best_match`, built on
  `fuzzywuzzy.process.extractOne` with the default scorer `fuzz.WRatio`
  (pure-Python backend, i.e. `difflib.SequenceMatcher`),
* the route lookups `get_path` (exact only) and `lookup_route`
  (exact, then fuzzy fallback at threshold 60),
* the per-query body of the `main` interactive loop.

Modelling conventions: missing tabular cells (pandas `NaN`) are `Option.none`;
Python exceptions are `Except.error`; Python `float` arithmetic inside
fuzzywuzzy (the ratios `2*M/T`, the scaling factors 0.95/0.90/0.6 and
`int(round(...))`) is modelled with exact fractions of naturals and
round-half-to-even, which agrees with the float computation everywhere a
claim below depends on it; character predicates
(`\s`, `\w`, `str.lower`) are modelled on the fragment of Unicode this
program processes (ASCII plus the Arabic block), as documented next to each
definition.
-/

/-- Python whitespace (`str.isspace` / regex `\s` with the Unicode flag):
ASCII whitespace, the C1 separators, and the Unicode space characters. -/
def pyIsSpace (c : Char) : Bool :=
  c.toNat = 0x20 || (0x9 ≤ c.toNat && c.toNat ≤ 0xD) ||
  (0x1C ≤ c.toNat && c.toNat ≤ 0x1F) ||
  c.toNat = 0x85 || c.toNat = 0xA0 || c.toNat = 0x1680 ||
  (0x2000 ≤ c.toNat && c.toNat ≤ 0x200A) ||
  c.toNat = 0x2028 || c.toNat = 0x2029 || c.toNat = 0x202F ||
  c.toNat = 0x205F || c.toNat = 0x3000

/-- Python word character (regex `\w` with the Unicode flag) restricted to the
fragment this program's data lives in: ASCII alphanumerics, the underscore,
Arabic letters U+0621–U+064A (this range contains the tatweel U+0640, a
modifier letter, hence a word character in Python), and the Arabic-Indic
digit blocks.  Codepoints outside this fragment (which never occur in the
program's catalog or queries) are treated as non-word. -/
def pyWordChar (c : Char) : Bool :=
  (0x30 ≤ c.toNat && c.toNat ≤ 0x39) ||
  (0x41 ≤ c.toNat && c.toNat ≤ 0x5A) ||
  (0x61 ≤ c.toNat && c.toNat ≤ 0x7A) ||
  c = '_' ||
  (0x621 ≤ c.toNat && c.toNat ≤ 0x64A) ||
  (0x660 ≤ c.toNat && c.toNat ≤ 0x669) ||
  (0x6F0 ≤ c.toNat && c.toNat ≤ 0x6F9)

/-- Python `str.lower`, on the ASCII/Arabic fragment (Arabic is caseless). -/
def pyLower (c : Char) : Char :=
  if 0x41 ≤ c.toNat && c.toNat ≤ 0x5A then Char.ofNat (c.toNat + 32) else c

/-- fuzzywuzzy `utils.asciionly` as executed on Python 3: `str.translate`
with a table that deletes exactly the codepoints 128–255 (the table is built
from `chr(128)`…`chr(255)`), so characters above U+00FF — in particular the
whole Arabic block — survive. -/
def asciionly (s : List Char) : List Char :=
  s.filter (fun c => !(128 ≤ c.toNat && c.toNat ≤ 255))

/-- fuzzywuzzy `StringProcessor.replace_non_letters_non_numbers_with_whitespace`:
`re.sub(r"(?ui)\W", " ", s)`, each non-word character becomes one space. -/
def replaceNonWord (s : List Char) : List Char :=
  s.map (fun c => if pyWordChar c then c else ' ')

/-- Python `str.strip()`: remove leading and trailing whitespace. -/
def pyStrip (s : List Char) : List Char :=
  ((s.dropWhile pyIsSpace).reverse.dropWhile pyIsSpace).reverse

/-- Python `str.split()` with no argument: split on whitespace runs,
discarding empty pieces. -/
def pySplit (s : List Char) : List (List Char) :=
  let step := fun c (acc : List Char × List (List Char)) =>
    if pyIsSpace c then
      (([] : List Char), if acc.1.isEmpty then acc.2 else acc.1 :: acc.2)
    else (c :: acc.1, acc.2)
  let r := s.foldr step ([], [])
  if r.1.isEmpty then r.2 else r.1 :: r.2

/-- fuzzywuzzy `utils.full_process(s, force_ascii)`:
optionally strip Latin-1 high bytes, replace non-word characters with
spaces, lowercase, strip. -/
def fullProcess (forceAscii : Bool) (s : List Char) : List Char :=
  pyStrip ((replaceNonWord (if forceAscii then asciionly s else s)).map pyLower)

/-- fuzzywuzzy `utils.validate_string`: `len(s) > 0`. -/
def validateString (s : List Char) : Bool :=
  decide (0 < s.length)

/-- A non-negative fraction `num / den` (`den > 0` wherever it is used):
the exact model of the float values flowing through fuzzywuzzy. -/
abbrev Frac := Nat × Nat

/-- Value comparison of fractions by cross-multiplication. -/
def fracLt (x y : Frac) : Bool :=
  decide (x.1 * y.2 < y.1 * x.2)

/-- Python `max` on two float values: the first argument wins ties. -/
def fmax (x y : Frac) : Frac :=
  if fracLt x y then y else x

/-- Multiplication of fractions (no normalisation; comparisons cross-multiply). -/
def fmul (x y : Frac) : Frac :=
  (x.1 * y.1, x.2 * y.2)

/-- Python `max` over a list of float values (first maximal element wins);
the lists this is applied to are never empty, and the `[]` case is dead code. -/
def maxFrac : List Frac → Frac
  | [] => (0, 1)
  | x :: xs => xs.foldl fmax x

/-- Python 3 `round(n / d)` on our exact model of floats: round half to
even, as used by fuzzywuzzy `utils.intr(x) = int(round(x))`. -/
def roundHalfEven (n d : Nat) : Nat :=
  let q := n / d
  let r := n % d
  if 2 * r < d then q
  else if d < 2 * r then q + 1
  else if q % 2 = 0 then q else q + 1

/-- `utils.intr` applied to a fraction-valued score. -/
def pyRoundF (f : Frac) : Nat :=
  roundHalfEven f.1 f.2

/-! ### difflib.SequenceMatcher (the fuzzywuzzy pure-Python backend)

`SequenceMatcher(None, a, b)`: `isjunk` is `None`, so the junk set `bjunk`
is empty; the autojunk heuristic removes "popular" elements from `b2j`
when `len(b) >= 200`.
-/

/-- Positions (ascending) of character `c` in `b`: the `b2j` lists before
autojunk filtering. -/
def listIndexes (b : List Char) (c : Char) : List Nat :=
  (List.range b.length).filter (fun j => b.get? j == some c)

/-- difflib autojunk: with `n = len(b) >= 200`, an element occurring more
than `n // 100 + 1` times is popular and is dropped from `b2j`. -/
def bpopular (b : List Char) (c : Char) : Bool :=
  decide (200 ≤ b.length) && decide (b.length / 100 + 1 < (listIndexes b c).length)

/-- `b2j` lookup after autojunk filtering. -/
def b2j (b : List Char) (c : Char) : List Nat :=
  if bpopular b c then [] else listIndexes b c

/-- The `bjunk` membership test: `isjunk` was passed as `None`, so this is
constantly false (popular elements live in `bpopular`, not `bjunk`). -/
def bjunk : Char → Bool := fun _ => false

/-- Inner loop of `find_longest_match` for one row `i`: walk the (filtered,
ascending) `b2j` positions `js`, building the new `j2len` dictionary from the
previous row's `old` and updating the best block `(besti, bestj, bestk)`
when a strictly longer match `k` appears.  `j2len.get(j-1, 0)` for `j = 0`
reads the absent key `-1`, hence the explicit zero. -/
def dpInner (i : Nat) : List Nat → (Nat → Nat) → (Nat → Nat) → (Nat × Nat × Nat) →
    ((Nat → Nat) × (Nat × Nat × Nat))
  | [], _, newf, best => (newf, best)
  | j :: js, old, newf, best =>
    let k := (if j = 0 then 0 else old (j - 1)) + 1
    let newf' := fun x => if x = j then k else newf x
    let best' := if best.2.2 < k then (i + 1 - k, j + 1 - k, k) else best
    dpInner i js old newf' best'

/-- Outer loop of `find_longest_match`: one `dpInner` pass per row index in
`[alo, ahi)`.  The row's candidate positions are the `b2j` entries of `a[i]`
restricted to `blo ≤ j < bhi` (the source skips `j < blo` and breaks at
`j >= bhi`; the lists are ascending, so that is a filter). -/
def dpRows (a b : List Char) (blo bhi : Nat) :
    List Nat → (Nat → Nat) → (Nat × Nat × Nat) → (Nat × Nat × Nat)
  | [], _, best => best
  | i :: is, j2len, best =>
    let js := (b2j b (a.getD i ' ')).filter (fun j => decide (blo ≤ j) && decide (j < bhi))
    let st := dpInner i js j2len (fun _ => 0) best
    dpRows a b blo bhi is st.1 st.2

/-- The two leftward extension loops of `find_longest_match`
(`while besti > alo and bestj > blo and p(b[bestj-1]) and a[besti-1] == b[bestj-1]`),
with `p` the junk predicate of the loop (`not isbjunk` resp. `isbjunk`).
The fuel is an upper bound on the iteration count; each step decrements
`besti`, so passing the current `besti` as fuel is always sufficient. -/
def extendL (a b : List Char) (alo blo : Nat) (p : Char → Bool) :
    Nat → (Nat × Nat × Nat) → (Nat × Nat × Nat)
  | 0, st => st
  | fuel + 1, (bi, bj, bk) =>
    if alo < bi ∧ blo < bj ∧ p (b.getD (bj - 1) ' ') = true ∧
        a.getD (bi - 1) ' ' = b.getD (bj - 1) ' ' then
      extendL a b alo blo p fuel (bi - 1, bj - 1, bk + 1)
    else (bi, bj, bk)

/-- The two rightward extension loops of `find_longest_match`.  Each step
increments `bestk` while `besti + bestk < ahi`, so fuel `ahi` suffices. -/
def extendR (a b : List Char) (ahi bhi : Nat) (p : Char → Bool) :
    Nat → (Nat × Nat × Nat) → (Nat × Nat × Nat)
  | 0, st => st
  | fuel + 1, (bi, bj, bk) =>
    if bi + bk < ahi ∧ bj + bk < bhi ∧ p (b.getD (bj + bk) ' ') = true ∧
        a.getD (bi + bk) ' ' = b.getD (bj + bk) ' ' then
      extendR a b ahi bhi p fuel (bi, bj, bk + 1)
    else (bi, bj, bk)

/-- `SequenceMatcher.find_longest_match(alo, ahi, blo, bhi)`: the dynamic
programming pass followed by the four extension loops (non-junk then junk,
left then right). -/
def findLongest (a b : List Char) (alo ahi blo bhi : Nat) : Nat × Nat × Nat :=
  let dp := dpRows a b blo bhi (List.range' alo (ahi - alo)) (fun _ => 0) (alo, blo, 0)
  let e1 := extendL a b alo blo (fun c => !bjunk c) dp.1 dp
  let e2 := extendR a b ahi bhi (fun c => !bjunk c) ahi e1
  let e3 := extendL a b alo blo bjunk e2.1 e2
  extendR a b ahi bhi bjunk ahi e3

/-- Recursive block collection of `get_matching_blocks` (the source uses an
explicit queue; the recursion on the two subregions around the longest match
is the same computation, and the queue ordering is restored by the final
sort, which the recursion produces directly).  The fuel argument is an upper
bound on the recursion depth; every recursive call strictly shrinks
`(ahi - alo) + (bhi - blo)`, so `len(a) + len(b) + 1` at the top level never
runs out. -/
def blocksRec (a b : List Char) : Nat → Nat → Nat → Nat → Nat → List (Nat × Nat × Nat)
  | 0, _, _, _, _ => []
  | fuel + 1, alo, ahi, blo, bhi =>
    let t := findLongest a b alo ahi blo bhi
    if 0 < t.2.2 then
      blocksRec a b fuel alo t.1 blo t.2.1 ++
        t :: blocksRec a b fuel (t.1 + t.2.2) ahi (t.2.1 + t.2.2) bhi
    else []

/-- The adjacent-block merging loop at the end of `get_matching_blocks`,
starting from `i1 = j1 = k1 = 0`. -/
def mergeBlocks : (Nat × Nat × Nat) → List (Nat × Nat × Nat) → List (Nat × Nat × Nat)
  | acc, [] => if acc.2.2 ≠ 0 then [acc] else []
  | acc, t :: rest =>
    if acc.1 + acc.2.2 = t.1 ∧ acc.2.1 + acc.2.2 = t.2.1 then
      mergeBlocks (acc.1, acc.2.1, acc.2.2 + t.2.2) rest
    else if acc.2.2 ≠ 0 then acc :: mergeBlocks t rest
    else mergeBlocks t rest

/-- `SequenceMatcher.get_matching_blocks()`: collect, merge adjacent, and
append the terminal `(len(a), len(b), 0)` sentinel. -/
def getMatchingBlocks (a b : List Char) : List (Nat × Nat × Nat) :=
  mergeBlocks (0, 0, 0) (blocksRec a b (a.length + b.length + 1) 0 a.length 0 b.length) ++
    [(a.length, b.length, 0)]

/-- Total size of the matched blocks (`matches` in `SequenceMatcher.ratio`). -/
def sumK (l : List (Nat × Nat × Nat)) : Nat :=
  (l.map (fun t => t.2.2)).sum

/-- `SequenceMatcher.ratio()` as an exact fraction:
`_calculate_ratio(matches, len(a) + len(b))`, i.e. `2.0 * M / T`,
and `1.0` when both strings are empty. -/
def ratioF (a b : List Char) : Frac :=
  let t := a.length + b.length
  if t = 0 then (1, 1) else (2 * sumK (getMatchingBlocks a b), t)

/-! ### fuzzywuzzy fuzz.py

`ratio` and `partial_ratio` carry the decorators `check_for_none` (irrelevant
here: our strings are never Python `None`), `check_for_equivalence`
(`s1 == s2` returns 100 immediately) and `check_empty_string` (either
operand empty returns 0).
-/

/-- Python `max(a, b, c)` on integer scores. -/
def max3 (a b c : Nat) : Nat := max (max a b) c

/-- `fuzz.ratio(s1, s2)` = `utils.intr(100 * SequenceMatcher(None, s1, s2).ratio())`
behind the three decorators. -/
def fuzzRatio (s1 s2 : List Char) : Nat :=
  if s1 = s2 then 100
  else if s1.length = 0 ∨ s2.length = 0 then 0
  else roundHalfEven (100 * (ratioF s1 s2).1) (ratioF s1 s2).2

/-- `fuzz.partial_ratio(s1, s2)` behind the same decorators: slide the
shorter string along the matching blocks of `SequenceMatcher(shorter, longer)`,
score each window with a raw `ratio()`, return 100 as soon as a window
exceeds 0.995 (here: exceeds `199/200`), else `utils.intr(100 * max(scores))`.
(The source returns 100 at the first window above the threshold; the value
is the same as testing all windows, which is what the `any` here does.) -/
def partRatio (s1 s2 : List Char) : Nat :=
  if s1 = s2 then 100
  else if s1.length = 0 ∨ s2.length = 0 then 0
  else
    let shorter := if s1.length ≤ s2.length then s1 else s2
    let longer := if s1.length ≤ s2.length then s2 else s1
    let blocks := getMatchingBlocks shorter longer
    let scores := blocks.map
      (fun t => ratioF shorter ((longer.drop (t.2.1 - t.1)).take shorter.length))
    if scores.any (fun r => fracLt (199, 200) r) then 100
    else pyRoundF (fmul (100, 1) (maxFrac scores))

/-- Lexicographic (codepoint) order on strings, as used by Python `sorted`
and string `<`. -/
def lexLt : List Char → List Char → Bool
  | [], [] => false
  | [], _ :: _ => true
  | _ :: _, [] => false
  | a :: as, b :: bs => if a < b then true else if b < a then false else lexLt as bs

/-- Insertion into an ascending list (stable: equal keys keep order). -/
def insAsc (x : List Char) : List (List Char) → List (List Char)
  | [] => [x]
  | y :: ys => if lexLt x y then x :: y :: ys else y :: insAsc x ys

/-- Python `sorted` on a list of strings (ascending codepoint order). -/
def pySorted : List (List Char) → List (List Char)
  | [] => []
  | x :: xs => insAsc x (pySorted xs)

/-- Keep the first occurrence of each element: together with `pySorted`
this realises Python's `sorted(set(...))` (the output is determined by the
underlying set alone). -/
def dedupFirst (l : List (List Char)) : List (List Char) :=
  go l []
where
  go : List (List Char) → List (List Char) → List (List Char)
    | [], _ => []
    | x :: xs, seen => if seen.contains x then go xs seen else x :: go xs (x :: seen)

/-- `" ".join(tokens)`. -/
def joinTokens (l : List (List Char)) : List Char :=
  List.intercalate [' '] l

/-- `fuzz._process_and_sort(s, force_ascii, full_process=False)` as invoked
from `WRatio` (the strings are already processed): split, sort, join, strip. -/
def processAndSort (s : List Char) : List Char :=
  pyStrip (joinTokens (pySorted (pySplit s)))

/-- `fuzz.token_sort_ratio(p1, p2, full_process=False)`. -/
def tokenSortRatio (s1 s2 : List Char) : Nat :=
  fuzzRatio (processAndSort s1) (processAndSort s2)

/-- `fuzz.partial_token_sort_ratio(p1, p2, full_process=False)`. -/
def partTokenSortRatio (s1 s2 : List Char) : Nat :=
  partRatio (processAndSort s1) (processAndSort s2)

/-- `fuzz._token_set(s1, s2, partial, full_process=False)`: validate, split
into token sets, and compare the sorted intersection against the two
sorted-intersection-plus-difference combinations, taking the best of the
three pairwise scores. -/
def tokenSetCore (ratioFun : List Char → List Char → Nat) (s1 s2 : List Char) : Nat :=
  if s1.length = 0 then 0
  else if s2.length = 0 then 0
  else
    let t1 := dedupFirst (pySplit s1)
    let t2 := dedupFirst (pySplit s2)
    let inter := pySorted (t1.filter (fun x => t2.contains x))
    let d12 := pySorted (t1.filter (fun x => !t2.contains x))
    let d21 := pySorted (t2.filter (fun x => !t1.contains x))
    let sect := joinTokens inter
    let c12 := pyStrip (sect ++ [' '] ++ joinTokens d12)
    let c21 := pyStrip (sect ++ [' '] ++ joinTokens d21)
    let sect' := pyStrip sect
    max3 (ratioFun sect' c12) (ratioFun sect' c21) (ratioFun c12 c21)

/-- `fuzz.token_set_ratio(p1, p2, full_process=False)`. -/
def tokenSetRatio (s1 s2 : List Char) : Nat :=
  tokenSetCore fuzzRatio s1 s2

/-- `fuzz.partial_token_set_ratio(p1, p2, full_process=False)`. -/
def partTokenSetRatio (s1 s2 : List Char) : Nat :=
  tokenSetCore partRatio s1 s2

/-- `fuzz.WRatio(s1, s2)` with its default `force_ascii=True`,
`full_process=True`: process both strings, bail out with 0 when either
processed string is empty, then combine the plain ratio with token-based
ratios; partial ratios are used only when the processed lengths differ by a
factor of at least 1.5, with scale 0.9 (0.6 when the factor exceeds 8), and
the token scores carry the additional `unbase_scale` 0.95. -/
def wratio (s1 s2 : List Char) : Nat :=
  let p1 := fullProcess true s1
  let p2 := fullProcess true s2
  if p1.length = 0 then 0
  else if p2.length = 0 then 0
  else
    let base : Frac := (fuzzRatio p1 p2, 1)
    let maxL := max p1.length p2.length
    let minL := min p1.length p2.length
    if 2 * maxL < 3 * minL then
      let tsor : Frac := fmul (tokenSortRatio p1 p2, 1) (19, 20)
      let tser : Frac := fmul (tokenSetRatio p1 p2, 1) (19, 20)
      pyRoundF (fmax (fmax base tsor) tser)
    else
      let pscale : Frac := if 8 * minL < maxL then (3, 5) else (9, 10)
      let pr : Frac := fmul (partRatio p1 p2, 1) pscale
      let ptsor : Frac := fmul (fmul (partTokenSortRatio p1 p2, 1) (19, 20)) pscale
      let ptser : Frac := fmul (fmul (partTokenSetRatio p1 p2, 1) (19, 20)) pscale
      pyRoundF (fmax (fmax (fmax base pr) ptsor) ptser)

/-! ### fuzzywuzzy process.py

`extractOne(query, choices)` with the default processor `utils.full_process`
(`force_ascii=False`) and default scorer `fuzz.WRatio`, `score_cutoff=0`:
the query is processed once by the processor, the processor is then replaced
by a no-op for the choices ("don't run full_process twice"), each choice is
scored by `WRatio(processed_query, choice)` (which internally re-processes
both arguments with `force_ascii=True`), pairs scoring at least the cutoff
are kept, and `max(best_list, key=lambda i: i[1])` returns the first pair
with the maximal score — or `None` if the kept list is empty. -/
def extractOneG {α : Type} (pq : List Char) (choices : List α) (toS : α → List Char) :
    Option (α × ℤ) :=
  let scored := choices.map (fun c => (c, (wratio pq (toS c) : ℤ)))
  let kept := scored.filter (fun p => decide (0 ≤ p.2))
  match kept with
  | [] => none
  | x :: xs => some (xs.foldl (fun acc y => if acc.2 < y.2 then y else acc) x)

/-! ### The catalog (pandas DataFrame) -/

/-- One CSV row: the `Name`, `English_name` and `Path` cells, each possibly
missing (`pd.read_csv` turns empty fields into `NaN`, modelled as `none`). -/
structure CsvRow where
  name : Option String
  english : Option String
  path : Option String
deriving DecidableEq

/-- The loaded DataFrame: its rows, plus whether the optional
`English_name` column exists in the file (`df.get("English_name", "")`
returns the column when present and the scalar `""` otherwise). -/
structure Table where
  hasEnglish : Bool
  rows : List CsvRow
deriving DecidableEq

/-- A cell value as seen by the Python caller: a string, or the float `NaN`
that pandas uses for a missing cell. -/
inductive PyVal where
  | str (s : String)
  | nan
deriving DecidableEq

/-- Python truthiness of a cell value: the empty string is falsy, every
other string is truthy, and the float `NaN` is truthy. -/
def pyTruthy : PyVal → Bool
  | .str s => !s.isEmpty
  | .nan => true

/-- Rendering a cell value into an f-string: `str(nan)` is `"nan"`. -/
def render : PyVal → String
  | .str s => s
  | .nan => "nan"

/-- The `Path` cell of a row as a Python value. -/
def cellVal (c : Option String) : PyVal :=
  match c with
  | some s => .str s
  | none => .nan

/-- `df["Display_Name"] = df["Name"].fillna(df.get("English_name", ""))`
for one row: a present `Name` (even the empty string) is kept; a missing
`Name` is filled from the `English_name` cell when the column exists
(that cell may itself be missing, leaving `NaN`), and from the scalar
`""` when it does not. -/
def displayOf (t : Table) (r : CsvRow) : Option String :=
  match r.name with
  | some n => some n
  | none => if t.hasEnglish then r.english else some ""

/-- The `Display_Name` column, in row order. -/
def buildDisplay (t : Table) : List (Option String) :=
  t.rows.map (displayOf t)

/-- `df["Display_Name"].dropna().tolist()` — the choice list handed to the
fuzzy matcher by `find_best_match`. -/
def candidates (t : Table) : List String :=
  (buildDisplay t).filterMap id

/-- Python `score or 0` on the integer score returned by `extractOne`
(the identity on integers: `0 or 0` is `0`). -/
def pyOrInt (s : ℤ) : ℤ :=
  if s = 0 then 0 else s

/-- `find_best_match(query)` from `siraj_pipeline.py` (lines 87–91):
`names = df["Display_Name"].dropna().tolist()`;
`best, score = process.extractOne(query, names)`; `return best, score or 0`.
When `names` is empty, `extractOne` returns `None` and the tuple unpacking
raises `TypeError`, modelled as `Except.error`. -/
def find_best_match (query : String) (t : Table) : Except String (String × ℤ) :=
  match extractOneG (fullProcess false query.data) (candidates t) (fun s => s.data) with
  | none => .error "TypeError: cannot unpack non-iterable NoneType object"
  | some (best, score) => .ok (best, pyOrInt score)

/-- `get_path(name)` from `siraj_pipeline.py` (lines 93–98):
`row = df[df["Display_Name"] == name]` (a `NaN` display cell compares
unequal to every string); empty selection returns `""`, otherwise the
`Path` cell of the first selected row is returned as-is — possibly the
float `NaN`. -/
def get_path (name : String) (t : Table) : PyVal :=
  match t.rows.filter (fun r => displayOf t r == some name) with
  | [] => .str ""
  | r :: _ => cellVal r.path

/-- The choice strings seen by the fuzzy fallback of `lookup_route`, which
uses `tolist()` without `dropna()`: a missing display cell is the float
`NaN`, which `WRatio`'s `full_process(force_ascii=True)` coerces through
`asciidammit(str(nan))` to the string `"nan"`. -/
def cellChars (c : Option String) : List Char :=
  match c with
  | some s => s.data
  | none => "nan".data

/-- `lookup_route(restaurant_name)` from `siraj_super_version.py`
(lines 44–56): first an exact equality selection on `Display_Name`; if it
is empty, a fuzzywuzzy `extractOne` over the full display column (`NaN`
included), accepting the best candidate at score ≥ 60; otherwise `""`.
`extractOne` on an empty column raises (`None` unpacking); a best choice
that is the `NaN` cell makes the subsequent `df[df["Display_Name"] == best]`
selection empty and `iloc[0]` raise `IndexError`. -/
def lookup_route (restaurant_name : String) (t : Table) : Except String PyVal :=
  match t.rows.filter (fun r => displayOf t r == some restaurant_name) with
  | r :: _ => .ok (cellVal r.path)
  | [] =>
    match extractOneG (fullProcess false restaurant_name.data) (buildDisplay t) cellChars with
    | none => .error "TypeError: cannot unpack non-iterable NoneType object"
    | some (best, score) =>
      if 60 ≤ score then
        match best with
        | none => .error "IndexError: single positional indexer is out-of-bounds"
        | some b =>
          match t.rows.filter (fun r => displayOf t r == some b) with
          | r :: _ => .ok (cellVal r.path)
          | [] => .error "IndexError: single positional indexer is out-of-bounds"
      else .ok (.str "")

/-! ### The name extractor

`extract_destination(text)`: `re.search(r"(?:إلى|لـ|ل)\s*([؀-ۿ\s]+)", text)`,
returning `match.group(1).strip()` on success and `text.strip()` otherwise.
`re.search` scans positions left to right; at each position the alternatives
are tried in order, each followed by the greedy `\s*` and the mandatory
group `[؀-ۿ\s]+`, with backtracking from `\s*` into the group.
-/

/-- Membership in the character class `[؀-ۿ\s]` (the Arabic block
U+0600–U+06FF or whitespace). -/
def inClass (c : Char) : Bool :=
  (0x600 ≤ c.toNat && c.toNat ≤ 0x6FF) || pyIsSpace c

/-- Matching `\s*([؀-ۿ\s]+)` against the text after a marker, returning the
group on success.  The greedy `\s*` first takes the whole whitespace run
`w`; if the next character is in the class the (greedy) group starts there;
otherwise `\s*` backtracks one character, and the group is that single
whitespace character (the group cannot extend further, since the character
after `w` is not in the class); with no whitespace to give back, the
position fails. -/
def tailMatch (rest : List Char) : Option (List Char) :=
  let w := rest.takeWhile pyIsSpace
  let r := rest.dropWhile pyIsSpace
  match r with
  | c :: _ =>
    if inClass c then some (r.takeWhile inClass)
    else match w.getLast? with
      | some lastWs => some [lastWs]
      | none => none
  | [] =>
    match w.getLast? with
    | some lastWs => some [lastWs]
    | none => none

/-- Try the three alternatives `إلى`, `لـ`, `ل` at one position, each with
its tail; regex alternation backtracks to the next alternative when the
tail fails. -/
def tryAlt (cs : List Char) : Option (List Char) :=
  match (if "إلى".data.isPrefixOf cs then tailMatch (cs.drop 3) else none) with
  | some g => some g
  | none =>
    match (if "لـ".data.isPrefixOf cs then tailMatch (cs.drop 2) else none) with
    | some g => some g
    | none => if "ل".data.isPrefixOf cs then tailMatch (cs.drop 1) else none

/-- `re.search`: the leftmost position at which some alternative (with its
tail) matches, yielding the captured group. -/
def searchGroup : List Char → Option (List Char)
  | [] => none
  | c :: rest =>
    match tryAlt (c :: rest) with
    | some g => some g
    | none => searchGroup rest

/-- `extract_destination(text)` from `siraj_pipeline.py` (lines 80–85). -/
def extract_destination (text : String) : String :=
  match searchGroup text.data with
  | some g => String.mk (pyStrip g)
  | none => String.mk (pyStrip text.data)

/-- Whether the utterance contains one of the three directional preposition
markers (`إلى`, `لـ`, the bare `ل`) as a substring. -/
def hasMarker (l : List Char) : Bool :=
  decide ("إلى".data <:+: l) || decide ("لـ".data <:+: l) || decide ("ل".data <:+: l)

/-! ### The interactive loop -/

/-- The apology spoken when the fuzzy score is below 60. -/
def apologyText : String := "عذراً، لم أتعرف على اسم المطعم. حاول مرة أخرى."

/-- The message spoken when the looked-up path is falsy. -/
def noDirectionsText : String := "للأسف لا توجد توجيهات متوفرة لهذه الوجهة."

/-- The success f-string spoken with the matched name and the rendered path. -/
def successText (best path : String) : String :=
  "أقرب مسار لمطعم " ++ best ++ " هو: " ++ path

/-- One per-query pass of `main` in `siraj_pipeline.py` (lines 120–133),
from the transcribed question to the spoken response: extract the
destination, fuzzy-match it, apologise (and `continue`) below score 60,
otherwise fetch the path and speak the no-directions message for a falsy
path or the success message with the rendered path.  The boolean records
whether `get_path` was invoked on this pass. -/
def mainStep (question : String) (t : Table) : Except String (String × Bool) :=
  match find_best_match (extract_destination question) t with
  | .error e => .error e
  | .ok (best, score) =>
    if score < 60 then .ok (apologyText, false)
    else
      let path := get_path best t
      if pyTruthy path then .ok (successText best (render path), true)
      else .ok (noDirectionsText, true)

/-! ### The display-name policy claimed by the specification

For the refinement claim C8 the specification's own policy
("`display_name = primary_name if non-empty else fallback_name else \"\"`",
every row retained with its key participating in matching) is stated as a
separate definition, to be compared with `displayOf`/`candidates` above. -/

/-- The display name a row would get under the specification's wording:
the primary name when non-empty, else the fallback name, else `""`. -/
def claimedDisplay (r : CsvRow) : String :=
  let p := r.name.getD ""
  if p ≠ "" then p else r.english.getD ""

/-! ### Concrete inputs used by witnesses and counterexamples -/

/-- A catalog with no rows at all. -/
def tblEmpty : Table := ⟨true, []⟩

/-- A one-row ASCII catalog. -/
def tblSmall : Table := ⟨true, [⟨some "aaaa", none, some "p"⟩]⟩

/-- Two display names whose processed forms coincide (`AB` and `ab`). -/
def tblTie : Table := ⟨true, [⟨some "AB", none, some "p1"⟩, ⟨some "ab", none, some "p2"⟩]⟩

/-- A display name consisting of punctuation only. -/
def tblBang : Table := ⟨true, [⟨some "!!!", none, none⟩]⟩

/-- The catalog for the lookup claims. -/
def tblAbc : Table := ⟨true, [⟨some "abc", none, some "P"⟩]⟩

/-- A row with both name cells missing (and the English column present). -/
def tblNoName : Table := ⟨true, [⟨none, none, some "P"⟩]⟩

/-- A row with a present-but-empty primary name and an English fallback. -/
def rowEmptyName : CsvRow := ⟨some "", some "E", none⟩

/-- A catalog whose single row has a missing `Path` cell. -/
def tblNanPath : Table := ⟨true, [⟨some "aaaa", none, none⟩]⟩

deriving instance DecidableEq for Except

/-! ### Invariants used by the proofs -/

/-- A fraction with non-zero denominator and value at most `k`. -/
def FracOK (k : Nat) (f : Frac) : Prop :=
  f.2 ≠ 0 ∧ f.1 ≤ k * f.2

/-- A matching block that lies inside the region `[alo, ahi) × [blo, bhi)`. -/
def BlockOK (alo ahi blo bhi : Nat) (t : Nat × Nat × Nat) : Prop :=
  alo ≤ t.1 ∧ blo ≤ t.2.1 ∧ t.1 + t.2.2 ≤ ahi ∧ t.2.1 + t.2.2 ≤ bhi

/-- Invariant of the `j2len` dictionary before processing row `i`: a
non-zero entry at key `j` records a common substring ending at row `i - 1`
and column `j`, entirely inside the region. -/
def J2lenOK (alo blo i : Nat) (f : Nat → Nat) : Prop :=
  ∀ j, f j ≠ 0 → f j ≤ i - alo ∧ blo + f j ≤ j + 1

/-! ## Theorems

### Arithmetic bounds for the score pipeline -/

theorem roundHalfEven_le (n d k : Nat) (hd : d ≠ 0) (h : n ≤ k * d) :
    roundHalfEven n d ≤ k := by
  have hdm := Nat.div_add_mod n d
  have hrlt : n % d < d := Nat.mod_lt _ (Nat.pos_of_ne_zero hd)
  have hq : n / d ≤ k := Nat.div_le_of_le_mul (by rw [Nat.mul_comm]; exact h)
  rcases Nat.lt_or_ge (n / d) k with hlt | hge
  · simp only [roundHalfEven]
    split
    · omega
    · split
      · omega
      · split
        · omega
        · omega
  · have hqk : n / d = k := Nat.le_antisymm hq hge
    have hcomm : d * k = k * d := Nat.mul_comm d k
    have hr0 : n % d = 0 := by rw [hqk] at hdm; omega
    simp only [roundHalfEven]
    split
    · omega
    · split
      · omega
      · split
        · omega
        · omega

theorem fracOK_fmax {k : Nat} {x y : Frac} (hx : FracOK k x) (hy : FracOK k y) :
    FracOK k (fmax x y) := by
  unfold fmax
  split
  · exact hy
  · exact hx

theorem fracOK_pyRoundF {k : Nat} {f : Frac} (h : FracOK k f) : pyRoundF f ≤ k :=
  roundHalfEven_le f.1 f.2 k h.1 h.2

theorem dpInner_ok {alo ahi blo bhi : Nat} (i : Nat) (hi1 : alo ≤ i) (hi2 : i < ahi)
    (js : List Nat) (old : Nat → Nat) (hold : J2lenOK alo blo i old) :
    ∀ (newf : Nat → Nat) (best : Nat × Nat × Nat),
      (∀ j ∈ js, blo ≤ j ∧ j < bhi) →
      J2lenOK alo blo (i + 1) newf →
      BlockOK alo ahi blo bhi best →
      J2lenOK alo blo (i + 1) (dpInner i js old newf best).1 ∧
        BlockOK alo ahi blo bhi (dpInner i js old newf best).2 := by
  induction js with
  | nil =>
    intro newf best _ hnew hbest
    exact ⟨hnew, hbest⟩
  | cons j js ih =>
    intro newf best hjs hnew hbest
    have hj := hjs j (List.mem_cons_self _ _)
    have hk : (if j = 0 then 0 else old (j - 1)) + 1 ≤ i + 1 - alo ∧
        blo + ((if j = 0 then 0 else old (j - 1)) + 1) ≤ j + 1 := by
      split
      · omega
      · by_cases h0 : old (j - 1) = 0
        · rw [h0]; omega
        · have := hold (j - 1) h0
          omega
    simp only [dpInner]
    apply ih
    · intro x hx
      exact hjs x (List.mem_cons_of_mem _ hx)
    · intro x hx
      by_cases hxj : x = j
      · simp only [hxj, if_pos rfl] at hx ⊢
        exact hk
      · simp only [if_neg hxj] at hx ⊢
        exact hnew x hx
    · unfold BlockOK at hbest ⊢
      by_cases hcond : best.2.2 < (if j = 0 then 0 else old (j - 1)) + 1
      · simp only [if_pos hcond]
        omega
      · simp only [if_neg hcond]
        exact hbest

theorem dpRows_ok {a b : List Char} {alo ahi blo bhi : Nat} :
    ∀ (n i0 : Nat) (f : Nat → Nat) (best : Nat × Nat × Nat),
      alo ≤ i0 → i0 + n ≤ ahi →
      J2lenOK alo blo i0 f →
      BlockOK alo ahi blo bhi best →
      BlockOK alo ahi blo bhi (dpRows a b blo bhi (List.range' i0 n) f best) := by
  intro n
  induction n with
  | zero =>
    intro i0 f best _ _ _ hbest
    simpa [dpRows, List.range'] using hbest
  | succ n ih =>
    intro i0 f best h1 h2 hf hbest
    rw [List.range'_succ]
    simp only [dpRows]
    have hjs : ∀ j ∈ (b2j b (a.getD i0 ' ')).filter
        (fun j => decide (blo ≤ j) && decide (j < bhi)), blo ≤ j ∧ j < bhi := by
      intro j hjmem
      have hcond := List.of_mem_filter hjmem
      simp only [Bool.and_eq_true, decide_eq_true_eq] at hcond
      exact hcond
    have hst := dpInner_ok i0 h1 (by omega) _ f hf (fun _ => 0) best hjs
      (fun j hj => absurd rfl hj) hbest
    exact ih (i0 + 1) _ _ (by omega) (by omega) hst.1 hst.2

theorem extendL_ok {a b : List Char} {alo ahi blo bhi : Nat} {p : Char → Bool} :
    ∀ (fuel : Nat) (st : Nat × Nat × Nat), BlockOK alo ahi blo bhi st →
      BlockOK alo ahi blo bhi (extendL a b alo blo p fuel st) := by
  intro fuel
  induction fuel with
  | zero =>
    intro st h
    simpa [extendL] using h
  | succ fuel ih =>
    intro st h
    obtain ⟨bi, bj, bk⟩ := st
    simp only [extendL]
    split
    · rename_i hc
      apply ih
      unfold BlockOK at h ⊢
      simp only at h ⊢
      omega
    · exact h

theorem extendR_ok {a b : List Char} {alo ahi blo bhi : Nat} {p : Char → Bool} :
    ∀ (fuel : Nat) (st : Nat × Nat × Nat), BlockOK alo ahi blo bhi st →
      BlockOK alo ahi blo bhi (extendR a b ahi bhi p fuel st) := by
  intro fuel
  induction fuel with
  | zero =>
    intro st h
    simpa [extendR] using h
  | succ fuel ih =>
    intro st h
    obtain ⟨bi, bj, bk⟩ := st
    simp only [extendR]
    split
    · rename_i hc
      apply ih
      unfold BlockOK at h ⊢
      simp only at h ⊢
      omega
    · exact h

theorem findLongest_ok (a b : List Char) (alo ahi blo bhi : Nat)
    (h1 : alo ≤ ahi) (h2 : blo ≤ bhi) :
    BlockOK alo ahi blo bhi (findLongest a b alo ahi blo bhi) := by
  unfold findLongest
  apply extendR_ok
  apply extendL_ok
  apply extendR_ok
  apply extendL_ok
  apply dpRows_ok (ahi - alo) alo
  · exact Nat.le_refl alo
  · omega
  · intro j hj
    exact absurd rfl hj
  · unfold BlockOK
    simp only
    omega

theorem sumK_append (l1 l2 : List (Nat × Nat × Nat)) :
    sumK (l1 ++ l2) = sumK l1 + sumK l2 := by
  simp [sumK]

theorem sumK_cons (t : Nat × Nat × Nat) (l : List (Nat × Nat × Nat)) :
    sumK (t :: l) = t.2.2 + sumK l := by
  simp [sumK]

theorem blocksRec_sum (a b : List Char) :
    ∀ (fuel alo ahi blo bhi : Nat), alo ≤ ahi → blo ≤ bhi →
      sumK (blocksRec a b fuel alo ahi blo bhi) + alo ≤ ahi ∧
        sumK (blocksRec a b fuel alo ahi blo bhi) + blo ≤ bhi := by
  intro fuel
  induction fuel with
  | zero =>
    intro alo ahi blo bhi h1 h2
    simp [blocksRec, sumK]
    omega
  | succ fuel ih =>
    intro alo ahi blo bhi h1 h2
    have hb := findLongest_ok a b alo ahi blo bhi h1 h2
    unfold BlockOK at hb
    simp only [blocksRec]
    split
    · rename_i hk
      have ihl := ih alo (findLongest a b alo ahi blo bhi).1 blo
        (findLongest a b alo ahi blo bhi).2.1 (by omega) (by omega)
      have ihr := ih ((findLongest a b alo ahi blo bhi).1 + (findLongest a b alo ahi blo bhi).2.2)
        ahi ((findLongest a b alo ahi blo bhi).2.1 + (findLongest a b alo ahi blo bhi).2.2)
        bhi (by omega) (by omega)
      rw [sumK_append, sumK_cons]
      omega
    · constructor
      · simpa [sumK] using h1
      · simpa [sumK] using h2

theorem mergeBlocks_sum :
    ∀ (l : List (Nat × Nat × Nat)) (acc : Nat × Nat × Nat),
      sumK (mergeBlocks acc l) = acc.2.2 + sumK l := by
  intro l
  induction l with
  | nil =>
    intro acc
    simp only [mergeBlocks]
    split
    · simp [sumK]
    · rename_i h
      simp only [ne_eq, Decidable.not_not] at h
      simp [sumK, h]
  | cons t rest ih =>
    intro acc
    simp only [mergeBlocks]
    split
    · rw [ih]
      simp [sumK]
      omega
    · split
      · rw [sumK_cons, ih, sumK_cons]
      · rename_i hne h0
        simp only [ne_eq, Decidable.not_not] at h0
        rw [ih, sumK_cons, h0]
        omega

theorem matchesOf_le (a b : List Char) :
    sumK (getMatchingBlocks a b) ≤ a.length ∧ sumK (getMatchingBlocks a b) ≤ b.length := by
  unfold getMatchingBlocks
  rw [sumK_append, mergeBlocks_sum]
  have hs := blocksRec_sum a b (a.length + b.length + 1) 0 a.length 0 b.length
    (Nat.zero_le _) (Nat.zero_le _)
  simp only [sumK, List.map_cons, List.map_nil, List.sum_cons, List.sum_nil] at hs ⊢
  omega

theorem fracOK_ratioF (a b : List Char) : FracOK 1 (ratioF a b) := by
  have hm := matchesOf_le a b
  unfold FracOK
  simp only [ratioF]
  split
  · simp
  · rename_i ht
    simp only
    constructor
    · exact ht
    · omega

theorem fuzzRatio_le (s1 s2 : List Char) : fuzzRatio s1 s2 ≤ 100 := by
  unfold fuzzRatio
  split
  · exact Nat.le_refl 100
  · split
    · exact Nat.zero_le 100
    · have h := fracOK_ratioF s1 s2
      unfold FracOK at h
      exact roundHalfEven_le _ _ 100 h.1 (by omega)

theorem fracOK_foldl_fmax {k : Nat} :
    ∀ (xs : List Frac) (acc : Frac), FracOK k acc → (∀ f ∈ xs, FracOK k f) →
      FracOK k (xs.foldl fmax acc) := by
  intro xs
  induction xs with
  | nil =>
    intro acc h _
    simpa using h
  | cons x xs ih =>
    intro acc hacc hxs
    simp only [List.foldl_cons]
    exact ih _ (fracOK_fmax hacc (hxs x (List.mem_cons_self _ _)))
      (fun f hf => hxs f (List.mem_cons_of_mem _ hf))

theorem fracOK_maxFrac {k : Nat} (xs : List Frac) (h : ∀ f ∈ xs, FracOK k f) :
    FracOK k (maxFrac xs) := by
  cases xs with
  | nil =>
    unfold maxFrac FracOK
    simp
  | cons x xs =>
    unfold maxFrac
    exact fracOK_foldl_fmax xs x (h x (List.mem_cons_self _ _))
      (fun f hf => h f (List.mem_cons_of_mem _ hf))

theorem fracOK_fmul100 {m : Frac} (h : FracOK 1 m) : FracOK 100 (fmul (100, 1) m) := by
  unfold FracOK at h ⊢
  unfold fmul
  simp only at h ⊢
  omega

theorem partRatioWindows_le (shorter longer : List Char) :
    (if ((getMatchingBlocks shorter longer).map
        (fun t => ratioF shorter ((longer.drop (t.2.1 - t.1)).take shorter.length))).any
        (fun r => fracLt (199, 200) r) = true then 100
      else pyRoundF (fmul (100, 1) (maxFrac ((getMatchingBlocks shorter longer).map
        (fun t => ratioF shorter ((longer.drop (t.2.1 - t.1)).take shorter.length)))))) ≤ 100 := by
  split
  · exact Nat.le_refl 100
  · apply fracOK_pyRoundF
    apply fracOK_fmul100
    apply fracOK_maxFrac
    intro f hf
    obtain ⟨t, _, rfl⟩ := List.mem_map.mp hf
    exact fracOK_ratioF _ _

theorem partRatio_le (s1 s2 : List Char) : partRatio s1 s2 ≤ 100 := by
  simp only [partRatio]
  split
  · exact Nat.le_refl 100
  · split
    · exact Nat.zero_le 100
    · exact partRatioWindows_le _ _

theorem tokenSortRatio_le (s1 s2 : List Char) : tokenSortRatio s1 s2 ≤ 100 := by
  unfold tokenSortRatio
  exact fuzzRatio_le _ _

theorem partTokenSortRatio_le (s1 s2 : List Char) : partTokenSortRatio s1 s2 ≤ 100 := by
  unfold partTokenSortRatio
  exact partRatio_le _ _

theorem tokenSetCore_le (rf : List Char → List Char → Nat)
    (hrf : ∀ x y, rf x y ≤ 100) (s1 s2 : List Char) : tokenSetCore rf s1 s2 ≤ 100 := by
  unfold tokenSetCore
  split
  · exact Nat.zero_le 100
  · split
    · exact Nat.zero_le 100
    · simp only [max3]
      exact Nat.max_le.mpr ⟨Nat.max_le.mpr ⟨hrf _ _, hrf _ _⟩, hrf _ _⟩

theorem tokenSetRatio_le (s1 s2 : List Char) : tokenSetRatio s1 s2 ≤ 100 :=
  tokenSetCore_le fuzzRatio fuzzRatio_le s1 s2

theorem partTokenSetRatio_le (s1 s2 : List Char) : partTokenSetRatio s1 s2 ≤ 100 :=
  tokenSetCore_le partRatio partRatio_le s1 s2

theorem fracOK_base {x : Nat} (hx : x ≤ 100) : FracOK 100 ((x, 1) : Frac) := by
  unfold FracOK
  simp only
  omega

theorem fracOK_scale {x : Nat} (q : Frac) (hx : x ≤ 100) (hq : q.1 ≤ q.2) (hd : q.2 ≠ 0) :
    FracOK 100 (fmul (x, 1) q) := by
  unfold FracOK fmul
  simp only
  constructor
  · simpa using hd
  · have h := Nat.mul_le_mul hx hq
    calc x * q.1 ≤ 100 * q.2 := h
    _ = 100 * (1 * q.2) := by ring

theorem fracOK_scale2 {x : Nat} (q1 q2 : Frac) (hx : x ≤ 100) (h1 : q1.1 ≤ q1.2)
    (h2 : q2.1 ≤ q2.2) (d1 : q1.2 ≠ 0) (d2 : q2.2 ≠ 0) :
    FracOK 100 (fmul (fmul (x, 1) q1) q2) := by
  unfold FracOK fmul
  simp only
  constructor
  · simp only [Nat.one_mul]
    exact Nat.mul_ne_zero d1 d2
  · have h := Nat.mul_le_mul (Nat.mul_le_mul hx h1) h2
    calc x * q1.1 * q2.1 ≤ 100 * q1.2 * q2.2 := h
    _ = 100 * (1 * q1.2 * q2.2) := by ring

theorem wratio_le (s1 s2 : List Char) : wratio s1 s2 ≤ 100 := by
  simp only [wratio]
  split
  · exact Nat.zero_le 100
  · split
    · exact Nat.zero_le 100
    · split
      · apply fracOK_pyRoundF
        apply fracOK_fmax
        apply fracOK_fmax
        · exact fracOK_base (fuzzRatio_le _ _)
        · exact fracOK_scale _ (tokenSortRatio_le _ _) (by norm_num) (by norm_num)
        · exact fracOK_scale _ (tokenSetRatio_le _ _) (by norm_num) (by norm_num)
      · apply fracOK_pyRoundF
        apply fracOK_fmax
        apply fracOK_fmax
        apply fracOK_fmax
        · exact fracOK_base (fuzzRatio_le _ _)
        · exact fracOK_scale _ (partRatio_le _ _) (by split <;> norm_num) (by split <;> norm_num)
        · exact fracOK_scale2 _ _ (partTokenSortRatio_le _ _) (by norm_num)
            (by split <;> norm_num) (by norm_num) (by split <;> norm_num)
        · exact fracOK_scale2 _ _ (partTokenSetRatio_le _ _) (by norm_num)
            (by split <;> norm_num) (by norm_num) (by split <;> norm_num)

theorem foldl_pick_mem {α : Type} :
    ∀ (xs : List (α × ℤ)) (acc : α × ℤ),
      xs.foldl (fun a y => if a.2 < y.2 then y else a) acc = acc ∨
        xs.foldl (fun a y => if a.2 < y.2 then y else a) acc ∈ xs := by
  intro xs
  induction xs with
  | nil =>
    intro acc
    exact Or.inl rfl
  | cons x xs ih =>
    intro acc
    simp only [List.foldl_cons]
    rcases ih (if acc.2 < x.2 then x else acc) with h | h
    · rw [h]
      split
      · exact Or.inr (List.mem_cons_self _ _)
      · exact Or.inl rfl
    · exact Or.inr (List.mem_cons_of_mem _ h)

theorem foldl_pick_of_acc_max {α : Type} :
    ∀ (xs : List (α × ℤ)) (acc : α × ℤ), (∀ y ∈ xs, y.2 ≤ acc.2) →
      xs.foldl (fun a y => if a.2 < y.2 then y else a) acc = acc := by
  intro xs
  induction xs with
  | nil =>
    intro acc _
    rfl
  | cons x xs ih =>
    intro acc h
    have hx := h x (List.mem_cons_self _ _)
    simp only [List.foldl_cons, if_neg (by omega : ¬acc.2 < x.2)]
    exact ih acc (fun y hy => h y (List.mem_cons_of_mem _ hy))

theorem foldl_pick_first {α : Type} (B : ℤ) :
    ∀ (xs : List (α × ℤ)) (acc m : α × ℤ), acc.2 < B → (∀ y ∈ xs, y.2 ≤ B) →
      xs.find? (fun y => y.2 == B) = some m →
      xs.foldl (fun a y => if a.2 < y.2 then y else a) acc = m := by
  intro xs
  induction xs with
  | nil =>
    intro acc m _ _ hf
    simp [List.find?] at hf
  | cons x xs ih =>
    intro acc m h1 h2 hf
    by_cases hx : x.2 = B
    · rw [List.find?_cons_of_pos _ (by simpa using hx)] at hf
      injection hf with hf
      subst hf
      simp only [List.foldl_cons, if_pos (by omega : acc.2 < x.2)]
      exact foldl_pick_of_acc_max xs x
        (fun y hy => by have := h2 y (List.mem_cons_of_mem _ hy); omega)
    · rw [List.find?_cons_of_neg _ (by simpa using hx)] at hf
      have hxB : x.2 ≤ B := h2 x (List.mem_cons_self _ _)
      simp only [List.foldl_cons]
      by_cases hax : acc.2 < x.2
      · rw [if_pos hax]
        exact ih x m (by omega) (fun y hy => h2 y (List.mem_cons_of_mem _ hy)) hf
      · rw [if_neg hax]
        exact ih acc m h1 (fun y hy => h2 y (List.mem_cons_of_mem _ hy)) hf

theorem extractOneG_nil {α : Type} (pq : List Char) (toS : α → List Char) :
    extractOneG pq ([] : List α) toS = none := by
  simp [extractOneG]

theorem extractOneG_mem {α : Type} (pq : List Char) (choices : List α) (toS : α → List Char)
    (c : α) (s : ℤ) (h : extractOneG pq choices toS = some (c, s)) :
    c ∈ choices ∧ s = (wratio pq (toS c) : ℤ) := by
  simp only [extractOneG] at h
  rw [List.filter_eq_self.mpr (fun p hp => by
    obtain ⟨c0, _, rfl⟩ := List.mem_map.mp hp
    simp)] at h
  rcases hm : choices.map (fun c => (c, (wratio pq (toS c) : ℤ))) with _ | ⟨x, xs⟩
  · rw [hm] at h
    exact absurd h (by simp)
  · rw [hm] at h
    injection h with h
    have hmem : (c, s) ∈ x :: xs := by
      rcases foldl_pick_mem xs x with he | he
      · rw [h] at he
        rw [he]
        exact List.mem_cons_self _ _
      · rw [h] at he
        exact List.mem_cons_of_mem _ he
    rw [← hm] at hmem
    obtain ⟨c0, hc0, heq⟩ := List.mem_map.mp hmem
    have h1 : c0 = c := congrArg Prod.fst heq
    have h2 : (wratio pq (toS c0) : ℤ) = s := congrArg Prod.snd heq
    subst h1
    exact ⟨hc0, h2.symm⟩

theorem extractOneG_hit100 {α : Type} (pq : List Char) (choices : List α) (toS : α → List Char)
    (b : α) (hfind : choices.find? (fun c => wratio pq (toS c) == 100) = some b) :
    extractOneG pq choices toS = some (b, 100) := by
  have hb100 : wratio pq (toS b) = 100 := by
    have h := List.find?_some hfind
    simpa using h
  have hfun : (fun y : α × ℤ => y.2 == (100 : ℤ)) ∘
      (fun c => (c, (wratio pq (toS c) : ℤ))) = fun c => wratio pq (toS c) == 100 := by
    funext c
    simp only [Function.comp]
    rcases Nat.decEq (wratio pq (toS c)) 100 with h | h
    · simp [h, Int.ofNat_inj]
      omega
    · simp [h]
  have hfind2 : (choices.map (fun c => (c, (wratio pq (toS c) : ℤ)))).find?
      (fun y => y.2 == (100 : ℤ)) = some (b, (100 : ℤ)) := by
    rw [List.find?_map, hfun, hfind]
    simp [hb100]
  have hbound : ∀ y ∈ choices.map (fun c => (c, (wratio pq (toS c) : ℤ))), y.2 ≤ (100 : ℤ) := by
    intro y hy
    obtain ⟨c0, _, rfl⟩ := List.mem_map.mp hy
    show ((wratio pq (toS c0) : ℤ)) ≤ 100
    exact_mod_cast wratio_le pq (toS c0)
  simp only [extractOneG]
  rw [List.filter_eq_self.mpr (fun p hp => by
    obtain ⟨c0, _, rfl⟩ := List.mem_map.mp hp
    simp)]
  rcases hm : choices.map (fun c => (c, (wratio pq (toS c) : ℤ))) with _ | ⟨x, xs⟩
  · rw [hm] at hfind2
    exact absurd hfind2 (by simp)
  · rw [hm] at hfind2 hbound
    dsimp only
    by_cases hx : x.2 = (100 : ℤ)
    · rw [List.find?_cons_of_pos _ (by simpa using hx)] at hfind2
      injection hfind2 with hfind2
      rw [foldl_pick_of_acc_max xs x (fun y hy => by
        have := hbound y (List.mem_cons_of_mem _ hy)
        omega)]
      rw [hfind2]
    · rw [List.find?_cons_of_neg _ (by simpa using hx)] at hfind2
      have hxle : x.2 ≤ (100 : ℤ) := hbound x (List.mem_cons_self _ _)
      rw [foldl_pick_first (100 : ℤ) xs x (b, (100 : ℤ)) (by omega)
        (fun y hy => hbound y (List.mem_cons_of_mem _ hy)) hfind2]

/-! ### The fuzzy resolver claims (C1, C3, C4) -/

theorem fuzzRatio_self (s : List Char) : fuzzRatio s s = 100 := by
  simp [fuzzRatio]

theorem tokenSetRatio_self (s : List Char) (h : s.length ≠ 0) : tokenSetRatio s s = 100 := by
  simp only [tokenSetRatio, tokenSetCore]
  rw [if_neg h, if_neg h]
  rw [fuzzRatio_self]
  simp only [max3]
  rw [Nat.max_self]
  exact Nat.max_eq_right (fuzzRatio_le _ _)

theorem wratio_self_processed (q : List Char)
    (hproc : fullProcess true (fullProcess false q) = fullProcess true q)
    (hne : fullProcess true q ≠ []) :
    wratio (fullProcess false q) q = 100 := by
  simp only [wratio]
  rw [hproc]
  have hlen : (fullProcess true q).length ≠ 0 := fun h => hne (List.length_eq_zero.mp h)
  rw [if_neg hlen, if_neg hlen]
  rw [Nat.max_self, Nat.min_self]
  rw [if_pos (by omega : 2 * (fullProcess true q).length < 3 * (fullProcess true q).length)]
  rw [fuzzRatio_self, tokenSetRatio_self _ hlen]
  simp only [tokenSortRatio]
  rw [fuzzRatio_self]
  rfl

/-- C1 (counterexample): resolving the spec's own example query against an
empty catalog does not return an absent match with score 0 — the tuple
unpacking of `extractOne`'s `None` raises a `TypeError` (modelled as
`Except.error`), so no `(match, score)` pair is produced at all. -/
theorem c1_counterexample :
    find_best_match "مطعم الديوان" tblEmpty =
        .error "TypeError: cannot unpack non-iterable NoneType object" ∧
      candidates tblEmpty = [] := by
  constructor
  · rfl
  · rfl

/-- C1 (amended): for every query, resolving against a catalog with no
display names makes `find_best_match` raise a `TypeError` (from unpacking
the `None` returned by `process.extractOne`) instead of returning a result. -/
theorem c1_empty_catalog_raises (q : String) (t : Table) (h : candidates t = []) :
    find_best_match q t = .error "TypeError: cannot unpack non-iterable NoneType object" := by
  unfold find_best_match
  rw [h, extractOneG_nil]

/-- C1 witness: the amended statement evaluated on the empty catalog. -/
theorem c1_witness :
    find_best_match "مطعم" tblEmpty =
      .error "TypeError: cannot unpack non-iterable NoneType object" :=
  c1_empty_catalog_raises "مطعم" tblEmpty rfl

/-- C3 (confirmed): for every query string and every catalog that has at
least one display name (per C1's reading, a non-empty catalog is one with
display names), `find_best_match` returns a best name that is one of the
catalog's display names together with an integer score in `[0, 100]`. -/
theorem c3_resolve_bounds (q : String) (t : Table) (h : candidates t ≠ []) :
    ∃ n s, find_best_match q t = Except.ok (n, s) ∧ n ∈ candidates t ∧ 0 ≤ s ∧ s ≤ 100 := by
  rcases he : extractOneG (fullProcess false q.data) (candidates t) (fun s => s.data)
    with _ | ⟨n, s⟩
  · exfalso
    rcases hc : candidates t with _ | ⟨c, cs⟩
    · exact h hc
    · rw [hc] at he
      simp only [extractOneG] at he
      rw [List.filter_eq_self.mpr (fun p hp => by
        obtain ⟨c0, _, rfl⟩ := List.mem_map.mp hp
        simp)] at he
      simp at he
  · obtain ⟨hmem, hs⟩ := extractOneG_mem _ _ _ _ _ he
    refine ⟨n, pyOrInt s, ?_, hmem, ?_, ?_⟩
    · unfold find_best_match
      rw [he]
    · unfold pyOrInt
      split
      · omega
      · rw [hs]
        exact Int.natCast_nonneg _
    · unfold pyOrInt
      split
      · omega
      · rw [hs]
        exact_mod_cast wratio_le _ _

/-- C3 witness: the bounds at a concrete query and one-row catalog. -/
theorem c3_witness :
    candidates tblSmall ≠ [] ∧
      ∃ n s, find_best_match "zzzz" tblSmall = Except.ok (n, s) ∧
        n ∈ candidates tblSmall ∧ 0 ≤ s ∧ s ≤ 100 :=
  ⟨by decide, c3_resolve_bounds "zzzz" tblSmall (by decide)⟩

/-- C4 (counterexample): two failures of the identity property as stated.
With catalog display names `AB`, `ab` and query `ab` (which equals the
second display name exactly), the resolver returns the other name `AB`
(scoring 100 after case-folding) rather than `ab`; and with the display
name `!!!` and the identical query, the score is 0, not 100 (processing
strips the string to empty, and `WRatio` returns 0 for empty strings). -/
theorem c4_counterexample :
    (find_best_match "ab" tblTie = .ok ("AB", 100) ∧ "AB" ≠ "ab") ∧
      find_best_match "!!!" tblBang = .ok ("!!!", 0) := by
  refine ⟨⟨?_, ?_⟩, ?_⟩
  · decide
  · decide
  · decide

/-- C4 (amended): if the query equals some display name of the catalog,
the doubly processed query coincides with the processed query (true
whenever processing the query is idempotent, e.g. for the catalog's plain
Arabic/ASCII names), and the processed query is non-empty, then the
returned score is exactly 100 and the returned name is the first catalog
name scoring 100 — which is the query's own match unless an earlier name
ties at 100. -/
theorem c4_exact_match (q : String) (t : Table)
    (hq : q ∈ candidates t)
    (hproc : fullProcess true (fullProcess false q.data) = fullProcess true q.data)
    (hne : fullProcess true q.data ≠ []) :
    ∃ b, find_best_match q t = .ok (b, 100) ∧
      (candidates t).find?
        (fun c => wratio (fullProcess false q.data) c.data == 100) = some b := by
  have hq100 : wratio (fullProcess false q.data) q.data = 100 :=
    wratio_self_processed q.data hproc hne
  have hsome : ((candidates t).find?
      (fun c => wratio (fullProcess false q.data) c.data == 100)).isSome := by
    rw [List.find?_isSome]
    exact ⟨q, hq, by simp [hq100]⟩
  obtain ⟨b, hb⟩ := Option.isSome_iff_exists.mp hsome
  refine ⟨b, ?_, hb⟩
  unfold find_best_match
  rw [extractOneG_hit100 _ _ _ b hb]
  rfl

/-- C4 witness: the amended statement at a query equal to the only display
name of the catalog. -/
theorem c4_witness :
    ("aaaa" ∈ candidates tblSmall ∧ fullProcess true "aaaa".data ≠ []) ∧
      ∃ b, find_best_match "aaaa" tblSmall = .ok (b, 100) ∧
        (candidates tblSmall).find?
          (fun c => wratio (fullProcess false "aaaa".data) c.data == 100) = some b :=
  ⟨⟨by decide, by decide⟩, c4_exact_match "aaaa" tblSmall (by decide) (by decide) (by decide)⟩

/-! ### Route lookup, catalog policy, and the interactive loop (C5, C8, C9, C10) -/

theorem filter_eq_cons_of_find? {α : Type} (p : α → Bool) :
    ∀ (l : List α) (r : α), l.find? p = some r → ∃ tl, l.filter p = r :: tl := by
  intro l
  induction l with
  | nil =>
    intro r h
    simp [List.find?] at h
  | cons x xs ih =>
    intro r h
    by_cases hx : p x = true
    · rw [List.find?_cons_of_pos _ hx] at h
      injection h with h
      subst h
      exact ⟨xs.filter p, by rw [List.filter_cons_of_pos hx]⟩
    · rw [List.find?_cons_of_neg _ (by simpa using hx)] at h
      obtain ⟨tl, htl⟩ := ih r h
      exact ⟨tl, by rw [List.filter_cons_of_neg (by simpa using hx)]; exact htl⟩

theorem filter_eq_nil_of_find?_none {α : Type} (p : α → Bool) (l : List α)
    (h : l.find? p = none) : l.filter p = [] := by
  rw [List.find?_eq_none] at h
  rw [List.filter_eq_nil_iff]
  intro a ha
  simp [h a ha]

/-- C5 (counterexample): `lookup_route` does apply fuzzy matching after the
exact-match step fails.  On the catalog with the single display name `abc`
(route `P`), the name `abcd` has no exact match, yet `lookup_route` returns
`P` (the fuzzy score of `abcd` against `abc` is 86 ≥ 60), not the empty
string the claim requires. -/
theorem c5_counterexample :
    tblAbc.rows.find? (fun r => displayOf tblAbc r == some "abcd") = none ∧
      lookup_route "abcd" tblAbc = .ok (.str "P") ∧
      PyVal.str "P" ≠ PyVal.str "" := by
  refine ⟨?_, ?_, ?_⟩
  · decide
  · decide
  · decide

/-- C5 (amended): `get_path` returns the `Path` cell of the first row whose
display name exactly equals the input and the empty string when there is
none, with no fuzzy step; `lookup_route` behaves the same on an exact hit,
but when no exact match exists it falls back to fuzzy matching — e.g.
`lookup_route "abcd"` on the catalog `[("abc", "P")]` returns `"P"`. -/
theorem c5_lookup :
    (∀ (n : String) (t : Table) (r : CsvRow),
        t.rows.find? (fun row => displayOf t row == some n) = some r →
        get_path n t = cellVal r.path ∧ lookup_route n t = .ok (cellVal r.path)) ∧
      (∀ (n : String) (t : Table),
        t.rows.find? (fun row => displayOf t row == some n) = none →
        get_path n t = .str "") ∧
      lookup_route "abcd" tblAbc = .ok (.str "P") := by
  refine ⟨?_, ?_, by decide⟩
  · intro n t r hr
    obtain ⟨tl, htl⟩ := filter_eq_cons_of_find? _ _ _ hr
    constructor
    · unfold get_path
      rw [htl]
    · unfold lookup_route
      rw [htl]
  · intro n t hn
    unfold get_path
    rw [filter_eq_nil_of_find?_none _ _ hn]

/-- C5 witness: the exact-match behaviour evaluated on the concrete catalog. -/
theorem c5_witness :
    get_path "abc" tblAbc = cellVal (some "P") ∧
      lookup_route "abc" tblAbc = .ok (cellVal (some "P")) :=
  c5_lookup.1 "abc" tblAbc ⟨some "abc", none, some "P"⟩ (by decide)

/-- C8 (counterexample): the claimed display policy fails in two ways.
A row with both name cells missing (with the `English_name` column present)
gets a missing — not empty — display name and is dropped by `dropna()`, so
it does not participate in fuzzy matching, while the claim predicts the
empty key `""` participating; and a present-but-empty primary name is kept
as `""` by `fillna` (which only fills missing values), while the claim
requires falling back to the non-empty `English_name` `E`. -/
theorem c8_counterexample :
    (candidates tblNoName = [] ∧ tblNoName.rows.map claimedDisplay = [""] ∧
      ([] : List String) ≠ [""]) ∧
      (displayOf ⟨true, [rowEmptyName]⟩ rowEmptyName = some "" ∧
        claimedDisplay rowEmptyName = "E" ∧ (some "" : Option String) ≠ some "E") := by
  refine ⟨⟨?_, ?_, ?_⟩, ?_, ?_, ?_⟩
  · decide
  · decide
  · decide
  · decide
  · decide
  · decide

/-- C8 (amended): the display name of a row is its `Name` cell when present
(even if the empty string), else — when the `English_name` column exists —
its `English_name` cell (which may itself be missing, leaving the display
name missing), else the scalar `""`.  A row's display name is missing
exactly when both cells are missing and the column exists; rows with a
present display name participate in fuzzy matching with that key (so the
empty key participates only when the `English_name` column is absent),
while rows with a missing display name are excluded by `dropna()`. -/
theorem c8_display_policy (t : Table) (r : CsvRow) (hr : r ∈ t.rows) :
    ((displayOf t r = none) ↔ (t.hasEnglish = true ∧ r.name = none ∧ r.english = none)) ∧
      (∀ d, displayOf t r = some d → d ∈ candidates t) ∧
      (t.hasEnglish = false → displayOf t r = some (r.name.getD "")) := by
  refine ⟨?_, ?_, ?_⟩
  · rcases r with ⟨rn, re, rp⟩
    cases he : t.hasEnglish <;> cases rn <;> cases re <;> simp [displayOf, he]
  · intro d hd
    unfold candidates buildDisplay
    rw [List.mem_filterMap]
    exact ⟨some d, by rw [← hd]; exact List.mem_map_of_mem _ hr, rfl⟩
  · intro he
    rcases r with ⟨rn, re, rp⟩
    cases rn <;> simp [displayOf, he]

/-- C8 witness: the amended policy evaluated on the row with both name
cells missing. -/
theorem c8_witness :
    (displayOf tblNoName ⟨none, none, some "P"⟩ = none) ↔
      (tblNoName.hasEnglish = true ∧ (none : Option String) = none ∧
        (none : Option String) = none) :=
  (c8_display_policy tblNoName ⟨none, none, some "P"⟩ (by decide)).1

/-- C9 (confirmed): in every per-query pass of the interactive loop in which
the resolver succeeds with a score below the threshold 60, the spoken
response is the apology message and `get_path` is never invoked on that
pass (the invocation flag of `mainStep` is `false`). -/
theorem c9_low_score_apology (question : String) (t : Table) (b : String) (s : ℤ)
    (h : find_best_match (extract_destination question) t = .ok (b, s)) (hs : s < 60) :
    mainStep question t = .ok (apologyText, false) := by
  unfold mainStep
  rw [h]
  dsimp only
  rw [if_pos hs]

/-- C9 witness: a query scoring 0 against the one-row catalog. -/
theorem c9_witness : mainStep "zzzz" tblSmall = .ok (apologyText, false) :=
  c9_low_score_apology "zzzz" tblSmall "aaaa" 0 (by decide) (by decide)

/-- C10 (confirmed): when the accepted best match's first catalog row has a
missing `Path` cell, `get_path` returns the tabular missing-value marker
`NaN` rather than a string; `NaN` is not the empty string and is truthy, so
the caller's `if not path` check does not fire and the marker is rendered
(as `"nan"`) into the success response. -/
theorem c10_nan_path (question : String) (t : Table) (b : String) (s : ℤ) (r : CsvRow)
    (h : find_best_match (extract_destination question) t = .ok (b, s)) (hs : ¬s < 60)
    (hr : t.rows.find? (fun row => displayOf t row == some b) = some r)
    (hpath : r.path = none) :
    get_path b t = .nan ∧ PyVal.nan ≠ .str "" ∧ pyTruthy PyVal.nan = true ∧
      mainStep question t = .ok (successText b "nan", true) := by
  obtain ⟨tl, htl⟩ := filter_eq_cons_of_find? _ _ _ hr
  have hgp : get_path b t = .nan := by
    unfold get_path
    rw [htl]
    dsimp only
    rw [hpath]
    rfl
  refine ⟨hgp, by decide, by decide, ?_⟩
  unfold mainStep
  rw [h]
  dsimp only
  rw [if_neg hs, hgp]
  rfl

/-- C10 witness: a catalog whose only row matches the query exactly but has
a missing `Path` cell. -/
theorem c10_witness :
    get_path "aaaa" tblNanPath = .nan ∧ PyVal.nan ≠ .str "" ∧ pyTruthy PyVal.nan = true ∧
      mainStep "aaaa" tblNanPath = .ok (successText "aaaa" "nan", true) :=
  c10_nan_path "aaaa" tblNanPath "aaaa" 100 ⟨some "aaaa", none, none⟩
    (by decide) (by decide) (by decide) (by decide)

/-! ### The name extractor claims (C2, C6, C7) -/

theorem takeWhile_all {p : Char → Bool} :
    ∀ l : List Char, (∀ c ∈ l, p c = true) → l.takeWhile p = l := by
  intro l
  induction l with
  | nil =>
    intro _
    rfl
  | cons x xs ih =>
    intro h
    rw [List.takeWhile_cons_of_pos (h x (List.mem_cons_self _ _))]
    rw [ih (fun c hc => h c (List.mem_cons_of_mem _ hc))]

theorem takeWhile_append_all {p : Char → Bool} :
    ∀ (l1 l2 : List Char), (∀ c ∈ l1, p c = true) →
      (l1 ++ l2).takeWhile p = l1 ++ l2.takeWhile p := by
  intro l1
  induction l1 with
  | nil =>
    intro l2 _
    rfl
  | cons x xs ih =>
    intro l2 h
    rw [List.cons_append, List.takeWhile_cons_of_pos (h x (List.mem_cons_self _ _))]
    rw [ih l2 (fun c hc => h c (List.mem_cons_of_mem _ hc)), List.cons_append]

theorem dropWhile_append_all {p : Char → Bool} :
    ∀ (l1 l2 : List Char), (∀ c ∈ l1, p c = true) →
      (l1 ++ l2).dropWhile p = l2.dropWhile p := by
  intro l1
  induction l1 with
  | nil =>
    intro l2 _
    rfl
  | cons x xs ih =>
    intro l2 h
    rw [List.cons_append, List.dropWhile_cons_of_pos (h x (List.mem_cons_self _ _))]
    exact ih l2 (fun c hc => h c (List.mem_cons_of_mem _ hc))

theorem mem_of_mem_dropWhile {p : Char → Bool} :
    ∀ (l : List Char), ∀ c ∈ l.dropWhile p, c ∈ l := by
  intro l
  induction l with
  | nil =>
    intro c hc
    exact hc
  | cons x xs ih =>
    intro c hc
    by_cases hx : p x = true
    · rw [List.dropWhile_cons_of_pos hx] at hc
      exact List.mem_cons_of_mem _ (ih c hc)
    · rw [List.dropWhile_cons_of_neg (by simpa using hx)] at hc
      exact hc

theorem getLast?_mem_chars : ∀ (l : List Char) (a : Char), l.getLast? = some a → a ∈ l := by
  intro l
  induction l with
  | nil =>
    intro a h
    simp [List.getLast?] at h
  | cons x xs ih =>
    intro a h
    cases hxs : xs with
    | nil =>
      subst hxs
      simp [List.getLast?] at h
      simp [h]
    | cons y ys =>
      subst hxs
      rw [List.getLast?_cons_cons] at h
      exact List.mem_cons_of_mem _ (ih a h)

theorem getLast?_some_of_ne_nil : ∀ (l : List Char), l ≠ [] → ∃ a, l.getLast? = some a := by
  intro l
  induction l with
  | nil =>
    intro h
    exact absurd rfl h
  | cons x xs ih =>
    intro _
    cases hxs : xs with
    | nil =>
      subst hxs
      exact ⟨x, rfl⟩
    | cons y ys =>
      subst hxs
      obtain ⟨a, ha⟩ := ih (by simp)
      exact ⟨a, by rw [List.getLast?_cons_cons]; exact ha⟩

theorem pyStrip_singleton_ws (c : Char) (h : pyIsSpace c = true) : pyStrip [c] = [] := by
  simp [pyStrip, h]

theorem pyStrip_eq_of_dropWhile_eq {l1 l2 : List Char}
    (h : l1.dropWhile pyIsSpace = l2.dropWhile pyIsSpace) : pyStrip l1 = pyStrip l2 := by
  unfold pyStrip
  rw [h]

theorem head_dropWhile_not {p : Char → Bool} :
    ∀ (l : List Char) (c : Char) (r : List Char), l.dropWhile p = c :: r → p c = false := by
  intro l
  induction l with
  | nil =>
    intro c r h
    simp at h
  | cons x xs ih =>
    intro c r h
    by_cases hx : p x = true
    · rw [List.dropWhile_cons_of_pos hx] at h
      exact ih c r h
    · rw [List.dropWhile_cons_of_neg (by simpa using hx)] at h
      injection h with h1 h2
      subst h1
      simpa using hx

theorem tailMatch_all_class (post : List Char) (hne : post ≠ [])
    (hcl : ∀ c ∈ post, inClass c = true) :
    ∃ g, tailMatch post = some g ∧ pyStrip g = pyStrip post := by
  simp only [tailMatch]
  rcases hr : post.dropWhile pyIsSpace with _ | ⟨c, r⟩
  · have hall : ∀ c ∈ post, pyIsSpace c = true := by
      intro c hc
      exact List.dropWhile_eq_nil_iff.mp hr c hc
    rw [takeWhile_all post hall]
    obtain ⟨lc, hlc⟩ := getLast?_some_of_ne_nil post hne
    rw [hlc]
    refine ⟨[lc], rfl, ?_⟩
    rw [pyStrip_singleton_ws lc (hall lc (getLast?_mem_chars post lc hlc))]
    symm
    unfold pyStrip
    rw [hr]
    rfl
  · have hcmem : c ∈ post := mem_of_mem_dropWhile post c (by rw [hr]; exact List.mem_cons_self _ _)
    dsimp only
    rw [if_pos (hcl c hcmem)]
    refine ⟨(c :: r).takeWhile inClass, rfl, ?_⟩
    have hsub : ∀ x ∈ c :: r, x ∈ post := by
      intro x hx
      exact mem_of_mem_dropWhile post x (by rw [hr]; exact hx)
    rw [takeWhile_all _ (fun x hx => hcl x (hsub x hx))]
    apply pyStrip_eq_of_dropWhile_eq
    rw [hr]
    exact List.dropWhile_cons_of_neg
      (by simp [head_dropWhile_not post c r hr])

theorem inClass_false_not_space {c : Char} (h : inClass c = false) : pyIsSpace c = false := by
  unfold inClass at h
  simp only [Bool.or_eq_false_iff] at h
  exact h.2

theorem tailMatch_ws (ws rest : List Char) (hws : ws ≠ [])
    (hwsall : ∀ c ∈ ws, pyIsSpace c = true)
    (hrest : ∀ c, rest.head? = some c → inClass c = false) :
    ∃ lc, tailMatch (ws ++ rest) = some [lc] ∧ pyIsSpace lc = true := by
  simp only [tailMatch]
  have h1 : (ws ++ rest).takeWhile pyIsSpace = ws := by
    rw [takeWhile_append_all ws rest hwsall]
    cases hr : rest with
    | nil =>
      simp
    | cons c cs =>
      subst hr
      rw [List.takeWhile_cons_of_neg]
      · simp
      · simp [inClass_false_not_space (hrest c rfl)]
  have h2 : (ws ++ rest).dropWhile pyIsSpace = rest := by
    rw [dropWhile_append_all ws rest hwsall]
    cases hr : rest with
    | nil =>
      rfl
    | cons c cs =>
      subst hr
      exact List.dropWhile_cons_of_neg
        (by simp [inClass_false_not_space (hrest c rfl)])
  rw [h1, h2]
  obtain ⟨lc, hlc⟩ := getLast?_some_of_ne_nil ws hws
  have hlcs := hwsall lc (getLast?_mem_chars ws lc hlc)
  cases hr : rest with
  | nil =>
    subst hr
    dsimp only
    rw [hlc]
    exact ⟨lc, rfl, hlcs⟩
  | cons c cs =>
    subst hr
    dsimp only
    rw [if_neg (by simp [hrest c rfl]), hlc]
    exact ⟨lc, rfl, hlcs⟩

theorem tryAlt_marker (marker post g : List Char)
    (hm : marker = "إلى".data ∨ marker = "لـ".data ∨ marker = "ل".data)
    (hg : tailMatch post = some g)
    (htat : marker = "ل".data → post.head? ≠ some 'ـ') :
    tryAlt (marker ++ post) = some g := by
  rcases hm with rfl | rfl | rfl
  · show tryAlt ('إ' :: 'ل' :: 'ى' :: post) = some g
    simp only [tryAlt]
    rw [if_pos (by simp [List.isPrefixOf])]
    dsimp only [List.drop]
    rw [hg]
  · show tryAlt ('ل' :: 'ـ' :: post) = some g
    simp only [tryAlt]
    rw [if_neg (by
      simp only [List.isPrefixOf]
      rw [show ('إ' == 'ل') = false from by decide]
      simp)]
    rw [if_pos (by simp [List.isPrefixOf])]
    dsimp only [List.drop]
    rw [hg]
  · show tryAlt ('ل' :: post) = some g
    have hh : post.head? ≠ some 'ـ' := htat rfl
    simp only [tryAlt]
    rw [if_neg (by
      simp only [List.isPrefixOf]
      rw [show ('إ' == 'ل') = false from by decide]
      simp)]
    rw [if_neg (by
      simp only [List.isPrefixOf]
      cases hp : post with
      | nil => simp
      | cons c cs =>
        subst hp
        have hc : c ≠ 'ـ' := fun hc => hh (by rw [hc]; rfl)
        simp only [List.isPrefixOf]
        rw [show ('ـ' == c) = false from beq_eq_false_iff_ne.mpr (Ne.symm hc)]
        simp)]
    rw [if_pos (by simp [List.isPrefixOf])]
    dsimp only [List.drop]
    rw [hg]

theorem searchGroup_marker (marker post g : List Char)
    (hm : marker = "إلى".data ∨ marker = "لـ".data ∨ marker = "ل".data)
    (hg : tailMatch post = some g)
    (htat : marker = "ل".data → post.head? ≠ some 'ـ') :
    searchGroup (marker ++ post) = some g := by
  have h := tryAlt_marker marker post g hm hg htat
  rcases hm with rfl | rfl | rfl
  · show searchGroup ('إ' :: ('ل' :: 'ى' :: post)) = some g
    simp only [searchGroup]
    rw [show tryAlt ('إ' :: 'ل' :: 'ى' :: post) = some g from h]
  · show searchGroup ('ل' :: ('ـ' :: post)) = some g
    simp only [searchGroup]
    rw [show tryAlt ('ل' :: 'ـ' :: post) = some g from h]
  · show searchGroup ('ل' :: post) = some g
    simp only [searchGroup]
    rw [show tryAlt ('ل' :: post) = some g from h]

theorem tryAlt_none (c : Char) (cs : List Char) (h1 : c ≠ 'إ') (h2 : c ≠ 'ل') :
    tryAlt (c :: cs) = none := by
  have e1 : "إلى".data.isPrefixOf (c :: cs) = false := by
    simp only [List.isPrefixOf]
    rw [show ('إ' == c) = false from beq_eq_false_iff_ne.mpr (Ne.symm h1)]
    simp
  have e2 : "لـ".data.isPrefixOf (c :: cs) = false := by
    simp only [List.isPrefixOf]
    rw [show ('ل' == c) = false from beq_eq_false_iff_ne.mpr (Ne.symm h2)]
    simp
  have e3 : "ل".data.isPrefixOf (c :: cs) = false := by
    simp only [List.isPrefixOf]
    rw [show ('ل' == c) = false from beq_eq_false_iff_ne.mpr (Ne.symm h2)]
    simp
  simp only [tryAlt]
  rw [if_neg (by simp [e1]), if_neg (by simp [e2]), if_neg (by simp [e3])]

theorem searchGroup_append (pre rest : List Char)
    (h : ∀ c ∈ pre, c ≠ 'إ' ∧ c ≠ 'ل') :
    searchGroup (pre ++ rest) = searchGroup rest := by
  induction pre with
  | nil =>
    rfl
  | cons c pre ih =>
    have hc := h c (List.mem_cons_self _ _)
    rw [List.cons_append]
    simp only [searchGroup]
    rw [tryAlt_none c _ hc.1 hc.2]
    exact ih (fun x hx => h x (List.mem_cons_of_mem _ hx))

theorem tryAlt_ila_no_lam (rest : List Char) (h : ∀ c ∈ rest, c ≠ 'ل') :
    tryAlt ('إ' :: rest) = none := by
  have e1 : "إلى".data.isPrefixOf ('إ' :: rest) = false := by
    cases hr : rest with
    | nil => decide
    | cons x xs =>
      subst hr
      have hx := h x (List.mem_cons_self _ _)
      simp only [List.isPrefixOf]
      rw [show ('ل' == x) = false from beq_eq_false_iff_ne.mpr (Ne.symm hx)]
      simp
  have e2 : "لـ".data.isPrefixOf ('إ' :: rest) = false := by
    simp only [List.isPrefixOf]
    rw [show ('ل' == 'إ') = false from by decide]
    simp
  have e3 : "ل".data.isPrefixOf ('إ' :: rest) = false := by
    simp only [List.isPrefixOf]
    rw [show ('ل' == 'إ') = false from by decide]
    simp
  simp only [tryAlt]
  rw [if_neg (by simp [e1]), if_neg (by simp [e2]), if_neg (by simp [e3])]

theorem searchGroup_no_lam (l : List Char) (h : ∀ c ∈ l, c ≠ 'ل') :
    searchGroup l = none := by
  induction l with
  | nil =>
    rfl
  | cons c rest ih =>
    have htail : ∀ x ∈ rest, x ≠ 'ل' := fun x hx => h x (List.mem_cons_of_mem _ hx)
    have hAlt : tryAlt (c :: rest) = none := by
      by_cases hc : c = 'إ'
      · subst hc
        exact tryAlt_ila_no_lam rest htail
      · exact tryAlt_none c rest hc (h c (List.mem_cons_self _ _))
    simp only [searchGroup]
    rw [hAlt]
    exact ih htail

theorem no_lam_of_no_marker (l : List Char) (h : hasMarker l = false) :
    ∀ c ∈ l, c ≠ 'ل' := by
  intro c hc hceq
  subst hceq
  unfold hasMarker at h
  simp only [Bool.or_eq_false_iff, decide_eq_false_iff_not] at h
  obtain ⟨s, t, rfl⟩ := List.append_of_mem hc
  exact h.2 ⟨s, t, by simp⟩

/-- C2 (counterexample): the spec's example utterance `مطعم الديوان` does
contain a marker — the single letter `ل` occurs inside the word `الديوان` —
so the regex matches there and `extract_destination` returns `ديوان`, not
the full trimmed utterance. -/
theorem c2_counterexample :
    extract_destination "مطعم الديوان" = "ديوان" ∧
      ("ديوان" : String) ≠ "مطعم الديوان" := by
  constructor
  · decide
  · decide

/-- C2 (amended): for every utterance containing none of the three markers
(`إلى`, `لـ`, `ل`) as a substring, `extract_destination` returns the
trimmed utterance unchanged; the spec's example, however, contains the
one-letter marker `ل` and extracts `ديوان` instead (see the
counterexample). -/
theorem c2_no_marker :
    (∀ text : String, hasMarker text.data = false →
        extract_destination text = String.mk (pyStrip text.data)) ∧
      extract_destination "مطعم الديوان" = "ديوان" := by
  constructor
  · intro text h
    unfold extract_destination
    rw [searchGroup_no_lam text.data (no_lam_of_no_marker text.data h)]
  · decide

/-- C2 witness: a marker-free utterance is returned stripped. -/
theorem c2_witness : extract_destination "مرحبا" = String.mk (pyStrip "مرحبا".data) :=
  c2_no_marker.1 "مرحبا" (by decide)

theorem takeWhile_append_pos {p : Char → Bool} :
    ∀ (l1 l2 : List Char), l1.dropWhile p ≠ [] →
      (l1 ++ l2).takeWhile p = l1.takeWhile p := by
  intro l1
  induction l1 with
  | nil =>
    intro l2 h
    exact absurd rfl h
  | cons x xs ih =>
    intro l2 h
    by_cases hx : p x = true
    · rw [List.cons_append, List.takeWhile_cons_of_pos hx, List.takeWhile_cons_of_pos hx,
        ih l2 (by rwa [List.dropWhile_cons_of_pos hx] at h)]
    · rw [List.cons_append, List.takeWhile_cons_of_neg (by simpa using hx),
        List.takeWhile_cons_of_neg (by simpa using hx)]

theorem dropWhile_append_pos {p : Char → Bool} :
    ∀ (l1 l2 : List Char), l1.dropWhile p ≠ [] →
      (l1 ++ l2).dropWhile p = l1.dropWhile p ++ l2 := by
  intro l1
  induction l1 with
  | nil =>
    intro l2 h
    exact absurd rfl h
  | cons x xs ih =>
    intro l2 h
    by_cases hx : p x = true
    · rw [List.cons_append, List.dropWhile_cons_of_pos hx, List.dropWhile_cons_of_pos hx]
      exact ih l2 (by rwa [List.dropWhile_cons_of_pos hx] at h)
    · rw [List.cons_append, List.dropWhile_cons_of_neg (by simpa using hx),
        List.dropWhile_cons_of_neg (by simpa using hx), List.cons_append]

/-- `tailMatch` on a non-empty maximal class run `post` (the following `rest`
starts outside the class, or is empty) captures a group that strips to the
stripped run, regardless of what `rest` contains beyond its first
character. -/
theorem tailMatch_class_run (post rest : List Char) (hne : post ≠ [])
    (hcl : ∀ c ∈ post, inClass c = true)
    (hrest : ∀ c, rest.head? = some c → inClass c = false) :
    ∃ g, tailMatch (post ++ rest) = some g ∧ pyStrip g = pyStrip post := by
  rcases hd : post.dropWhile pyIsSpace with _ | ⟨c, r⟩
  · have hall : ∀ x ∈ post, pyIsSpace x = true := by
      intro x hx
      exact List.dropWhile_eq_nil_iff.mp hd x hx
    obtain ⟨lc, hlc, hlcs⟩ := tailMatch_ws post rest hne hall hrest
    refine ⟨[lc], hlc, ?_⟩
    rw [pyStrip_singleton_ws lc hlcs]
    symm
    unfold pyStrip
    rw [hd]
    rfl
  · have hdne : post.dropWhile pyIsSpace ≠ [] := by
      rw [hd]
      simp
    have hcmem : c ∈ post := mem_of_mem_dropWhile post c (by rw [hd]; exact List.mem_cons_self _ _)
    have hsub : ∀ x ∈ c :: r, x ∈ post := by
      intro x hx
      exact mem_of_mem_dropWhile post x (by rw [hd]; exact hx)
    have hdrop : (post ++ rest).dropWhile pyIsSpace = c :: (r ++ rest) := by
      rw [dropWhile_append_pos post rest hdne, hd, List.cons_append]
    simp only [tailMatch]
    rw [hdrop]
    dsimp only
    rw [if_pos (hcl c hcmem)]
    refine ⟨(c :: (r ++ rest)).takeWhile inClass, rfl, ?_⟩
    have hrtw : rest.takeWhile inClass = [] := by
      cases hr : rest with
      | nil => rfl
      | cons y ys =>
        subst hr
        rw [List.takeWhile_cons_of_neg]
        simp [hrest y rfl]
    rw [← List.cons_append, takeWhile_append_all (c :: r) rest (fun x hx => hcl x (hsub x hx)),
      hrtw, List.append_nil]
    apply pyStrip_eq_of_dropWhile_eq
    rw [hd]
    exact List.dropWhile_cons_of_neg (by simp [head_dropWhile_not post c r hd])

/-- At a position holding `إ` whose next character is not `ل`, no
alternative matches (`إلى` needs the `ل`, and `لـ`/`ل` need a leading
`ل`). -/
theorem tryAlt_ila_head (rest : List Char) (h : rest.head? ≠ some 'ل') :
    tryAlt ('إ' :: rest) = none := by
  have e1 : "إلى".data.isPrefixOf ('إ' :: rest) = false := by
    cases hr : rest with
    | nil => decide
    | cons x xs =>
      subst hr
      have hx : x ≠ 'ل' := by
        intro hx
        exact h (by rw [hx]; rfl)
      simp only [List.isPrefixOf]
      rw [show ('ل' == x) = false from beq_eq_false_iff_ne.mpr (Ne.symm hx)]
      simp
  have e2 : "لـ".data.isPrefixOf ('إ' :: rest) = false := by
    simp only [List.isPrefixOf]
    rw [show ('ل' == 'إ') = false from by decide]
    simp
  have e3 : "ل".data.isPrefixOf ('إ' :: rest) = false := by
    simp only [List.isPrefixOf]
    rw [show ('ل' == 'إ') = false from by decide]
    simp
  simp only [tryAlt]
  rw [if_neg (by simp [e1]), if_neg (by simp [e2]), if_neg (by simp [e3])]

/-- The search skips a prefix that contains no `ل` and, when the suffix
starts with `ل`, does not end in `إ`: every alternative needs a `ل` as its
first or second character, so no match can start inside such a prefix (an
`إ` elsewhere in the prefix is harmless). -/
theorem searchGroup_append_no_lam :
    ∀ (pre rest : List Char), (∀ c ∈ pre, c ≠ 'ل') →
      (rest.head? = some 'ل' → pre.getLast? ≠ some 'إ') →
      searchGroup (pre ++ rest) = searchGroup rest := by
  intro pre
  induction pre with
  | nil =>
    intro rest _ _
    rfl
  | cons c pre ih =>
    intro rest h1 h2
    have hcl : c ≠ 'ل' := h1 c (List.mem_cons_self _ _)
    have hAlt : tryAlt (c :: (pre ++ rest)) = none := by
      by_cases hc : c = 'إ'
      · subst hc
        apply tryAlt_ila_head
        cases hp : pre with
        | nil =>
          subst hp
          simp only [List.nil_append]
          intro hcon
          exact h2 hcon (by simp)
        | cons d ds =>
          subst hp
          simp only [List.cons_append, List.head?_cons]
          intro hcon
          injection hcon with hd
          exact h1 d (List.mem_cons_of_mem _ (List.mem_cons_self _ _)) hd
      · exact tryAlt_none c _ hc hcl
    rw [List.cons_append]
    simp only [searchGroup]
    rw [hAlt]
    apply ih
    · exact fun x hx => h1 x (List.mem_cons_of_mem _ hx)
    · intro hres
      cases hp : pre with
      | nil =>
        subst hp
        simp
      | cons d ds =>
        subst hp
        have h3 := h2 hres
        rw [List.getLast?_cons_cons] at h3
        exact h3

/-- C6 (confirmed): when the utterance decomposes as
`pre ++ marker ++ post ++ rest`, where `post` is the non-empty maximal run
of class characters (Arabic block or whitespace) after the marker — `rest`,
arbitrary trailing text such as punctuation, starts with a character
outside the class or is empty — and the designated marker is the first
marker occurrence: `pre` contains no `ل` (a `ل` anywhere in `pre` would
itself be a position the regex tries first), `pre` does not end in `إ` when
the marker starts with `ل` (that would form `إلى` across the boundary),
and, for the bare-`ل` marker, `post` does not begin with tatweel (which
would instead form the `لـ` marker) — then `extract_destination` returns
exactly the trimmed run `post`; in particular, the spec's example
`خذني إلى مطعم الديوان` extracts `مطعم الديوان`. -/
theorem c6_marker_extraction :
    (∀ pre marker post rest : List Char,
        (marker = "إلى".data ∨ marker = "لـ".data ∨ marker = "ل".data) →
        (∀ c ∈ pre, c ≠ 'ل') →
        ((marker = "لـ".data ∨ marker = "ل".data) → pre.getLast? ≠ some 'إ') →
        post ≠ [] → (∀ c ∈ post, inClass c = true) →
        (∀ c, rest.head? = some c → inClass c = false) →
        (marker = "ل".data → post.head? ≠ some 'ـ') →
        extract_destination (String.mk (pre ++ marker ++ post ++ rest)) =
          String.mk (pyStrip post)) ∧
      extract_destination "خذني إلى مطعم الديوان" = "مطعم الديوان" := by
  constructor
  · intro pre marker post rest hm hpre hbnd hne hcl hrest htat
    obtain ⟨g, hg, hgs⟩ := tailMatch_class_run post rest hne hcl hrest
    have htat2 : marker = "ل".data → (post ++ rest).head? ≠ some 'ـ' := by
      intro hmm
      cases hp : post with
      | nil => exact absurd hp hne
      | cons p0 ps =>
        subst hp
        rw [List.cons_append, List.head?_cons]
        have h0 := htat hmm
        rw [List.head?_cons] at h0
        exact h0
    have hhead : (marker ++ (post ++ rest)).head? = some 'ل' → pre.getLast? ≠ some 'إ' := by
      rcases hm with rfl | rfl | rfl
      · intro hcon
        have hcon2 : ('إ' :: ('ل' :: 'ى' :: (post ++ rest))).head? = some 'ل' := hcon
        rw [List.head?_cons] at hcon2
        exact absurd hcon2 (by decide)
      · intro _
        exact hbnd (Or.inl rfl)
      · intro _
        exact hbnd (Or.inr rfl)
    unfold extract_destination
    show (match searchGroup (pre ++ marker ++ post ++ rest) with
      | some g => String.mk (pyStrip g)
      | none => String.mk (pyStrip (pre ++ marker ++ post ++ rest))) = String.mk (pyStrip post)
    rw [show pre ++ marker ++ post ++ rest = pre ++ (marker ++ (post ++ rest)) from by
      simp [List.append_assoc]]
    rw [searchGroup_append_no_lam pre (marker ++ (post ++ rest)) hpre hhead,
      searchGroup_marker marker (post ++ rest) g hm hg htat2]
    dsimp only
    rw [hgs]
  · decide

/-- C6 witness: the general statement at a concrete decomposition with a
trailing non-class segment (a Latin period) after the run. -/
theorem c6_witness :
    extract_destination (String.mk ("خذ ".data ++ "إلى".data ++ "م".data ++ ".".data)) =
      String.mk (pyStrip "م".data) :=
  c6_marker_extraction.1 "خذ ".data "إلى".data "م".data ".".data (Or.inl rfl)
    (by decide) (by decide) (by decide) (by decide) (by decide) (by decide)

/-- C7 (counterexample): an utterance containing a marker with no
target-script characters after it need not extract to the empty string:
in `خذني إلى` the full `إلى` match fails (nothing follows), but the regex
backtracks to the one-letter marker `ل` inside `إلى` and captures the
following letter `ى`, so `extract_destination` returns `ى`, not `""`. -/
theorem c7_counterexample :
    extract_destination "خذني إلى" = "ى" ∧ ("ى" : String) ≠ "" := by
  constructor
  · decide
  · decide

/-- C7 (amended): when the marker is followed by at least one whitespace
character and then by nothing, or by a character that is neither in the
target script nor whitespace (and the prefix before the marker contains no
marker characters), the group backtracks to a single whitespace character
and `extract_destination` returns the empty string after trimming.
Without such trailing whitespace the inner `ل` of `إلى` can match instead
and return a non-empty fragment (see the counterexample). -/
theorem c7_marker_then_ws (pre marker ws rest : List Char)
    (hm : marker = "إلى".data ∨ marker = "لـ".data ∨ marker = "ل".data)
    (hpre : ∀ c ∈ pre, c ≠ 'إ' ∧ c ≠ 'ل')
    (hws : ws ≠ []) (hwsall : ∀ c ∈ ws, pyIsSpace c = true)
    (hrest : ∀ c, rest.head? = some c → inClass c = false) :
    extract_destination (String.mk (pre ++ marker ++ (ws ++ rest))) = "" := by
  obtain ⟨lc, hlc, hlcs⟩ := tailMatch_ws ws rest hws hwsall hrest
  have htat : marker = "ل".data → (ws ++ rest).head? ≠ some 'ـ' := by
    intro _
    rcases hw : ws with _ | ⟨w0, ws'⟩
    · exact absurd hw hws
    · subst hw
      have hsp := hwsall w0 (List.mem_cons_self _ _)
      intro hcontra
      rw [List.cons_append] at hcontra
      simp only [List.head?] at hcontra
      injection hcontra with hcontra
      rw [hcontra] at hsp
      exact absurd hsp (by decide)
  unfold extract_destination
  show (match searchGroup (pre ++ marker ++ (ws ++ rest)) with
    | some g => String.mk (pyStrip g)
    | none => String.mk (pyStrip (pre ++ marker ++ (ws ++ rest)))) = ""
  rw [List.append_assoc, searchGroup_append pre (marker ++ (ws ++ rest)) hpre,
    searchGroup_marker marker (ws ++ rest) [lc] hm hlc htat]
  dsimp only
  rw [pyStrip_singleton_ws lc hlcs]

/-- C7 witness: the amended statement at a concrete utterance with the
marker followed by a space and nothing else. -/
theorem c7_witness :
    extract_destination (String.mk ("خذ ".data ++ "إلى".data ++ (" ".data ++ []))) = "" :=
  c7_marker_then_ws "خذ ".data "إلى".data " ".data [] (Or.inl rfl)
    (by decide) (by decide) (by decide) (by decide)
